import Mathlib

/-!
Shallow embedding of the wordle repository's race-coordination core:
the word scorer (`internal/game` word logic), the per-player game
session (`internal/game/game.go`), and the multiplayer room state
machine (`pkg/server` room logic), together with proofs of the
specification's claims about them.

Go strings are modelled as lists of characters (the code paths in
question operate on ASCII words, where Go's byte indexing and rune
iteration coincide); machine integers are modelled as `Int`; a Go
function that can return an `error` returns `Except`/`Option Err`;
a run-time panic (out-of-range indexing, nil-pointer dereference)
is modelled as `Option.none` in the result type.
-/

namespace Wordle

/-- Go strings restricted to the ASCII domain the game operates on. -/
abbrev GoStr := List Char

/-- Characters trimmed by Go's `strings.TrimSpace` (ASCII white space). -/
def goIsSpace (c : Char) : Bool :=
  decide (c = ' ' ∨ c = '\t' ∨ c = '\n' ∨ c = '\x0b' ∨ c = '\x0c' ∨ c = '\r')

/-- Embedding of `strings.TrimSpace`: drop white space on both ends. -/
def trimSpace (w : GoStr) : GoStr :=
  ((w.dropWhile goIsSpace).reverse.dropWhile goIsSpace).reverse

/-- Embedding of `strings.ToUpper` on the ASCII domain. -/
def toUpperStr (w : GoStr) : GoStr := w.map Char.toUpper

/-- Embedding of `ValidateWord` (word.go): exactly 5 characters, all letters. -/
def ValidateWord (w : GoStr) : Bool :=
  decide (w.length = 5) && w.all (fun c => c.isAlpha)

/-- Per-letter outcome of one position of a guess (word.go `LetterStatus`). -/
inductive LetterStatus where
  | Miss
  | Present
  | Hit
deriving DecidableEq, Repr

/-- Result of a single guess (word.go `GuessResult`). -/
structure GuessResult where
  Guess : GoStr
  Statuses : List LetterStatus
deriving DecidableEq, Repr

/-- Letter-count multiset of a word, as built by `EvaluateGuess`'s first loop
over the answer (`answerLetterCount`). -/
def countIn (w : GoStr) (ch : Char) : Nat :=
  (w.filter (fun c => decide (c = ch))).length

/-- Decrement one letter's remaining count (`answerLetterCount[ch]--`). -/
def decCount (c : Char → Nat) (ch : Char) : Char → Nat :=
  fun x => if x = ch then c ch - 1 else c x

/-- First pass of `EvaluateGuess` over the zipped guess/answer positions:
positions with `guess[i] == answer[i]` are marked Hit, the rest keep the
zero value Miss for now. -/
def hitMark (gz : List (Char × Char)) : List (Char × LetterStatus) :=
  gz.map (fun p => (p.1, if p.1 = p.2 then LetterStatus.Hit else LetterStatus.Miss))

/-- Counts remaining after the first pass decremented one count per Hit. -/
def afterHitCounts (gz : List (Char × Char)) (c : Char → Nat) : Char → Nat :=
  gz.foldl (fun c p => if p.1 = p.2 then decCount c p.1 else c) c

/-- Second pass of `EvaluateGuess`: non-Hit positions become Present while the
guessed letter still has remaining count, Miss otherwise. -/
def pass2 : List (Char × LetterStatus) → (Char → Nat) → List (Char × LetterStatus)
  | [], _ => []
  | (ch, st) :: rest, c =>
    if st = LetterStatus.Hit then (ch, LetterStatus.Hit) :: pass2 rest c
    else if 0 < c ch then (ch, LetterStatus.Present) :: pass2 rest (decCount c ch)
    else (ch, LetterStatus.Miss) :: pass2 rest c

/-- Guess positions paired with their final status, for a guess scored against
an answer (both uppercased first, as in `EvaluateGuess`). -/
def resultPairs (guess answer : GoStr) : List (Char × LetterStatus) :=
  let g := toUpperStr guess
  let a := toUpperStr answer
  pass2 (hitMark (g.zip a)) (afterHitCounts (g.zip a) (countIn a))

/-- Embedding of `EvaluateGuess` (word.go): two-pass scoring of a guess
against an answer. -/
def EvaluateGuess (guess answer : GoStr) : List LetterStatus :=
  (resultPairs guess answer).map Prod.snd

/-- Number of positions whose guessed letter is `L` and whose result is `st`. -/
def statusCount (guess : GoStr) (res : List LetterStatus) (L : Char) (st : LetterStatus) : Nat :=
  ((guess.zip res).filter (fun p => decide (p.1 = L) && decide (p.2 = st))).length

/-- Number of letter/status pairs carrying letter `L` and status `st`. -/
def pairCount (l : List (Char × LetterStatus)) (L : Char) (st : LetterStatus) : Nat :=
  (l.filter (fun p => decide (p.1 = L) && decide (p.2 = st))).length

/-- Number of exact-match positions carrying letter `L`. -/
def hitsAt (gz : List (Char × Char)) (L : Char) : Nat :=
  (gz.filter (fun p => decide (p.1 = p.2) && decide (p.1 = L))).length

/-- Status of a single game session (game.go `GameStatus`). -/
inductive GameStatus where
  | InProgress
  | Won
  | Lost
deriving DecidableEq, Repr

/-- Errors returned by the game and room layers; Go returns distinct error
strings, modelled as distinct constructors. -/
inductive Err where
  | GameAlreadyOver
  | InvalidGuess
  | MaxRoundsNotPositive
  | EmptyWordList
  | NoValidWords
  | RoomNotJoinable
  | RoomFull
  | DuplicatePlayer
  | PlayerNotInRoom
  | PlayerAlreadyFinished
  | NotHost
  | AlreadyStarted
  | NotEnoughPlayers
  | GameNotInProgress
deriving DecidableEq, Repr

/-- Embedding of game.go's `Game` (the word list field is carried only by the
single-player constructor and never read by the room layer, so it is kept
implicit). -/
structure Game where
  Answer : GoStr
  MaxRounds : Int
  CurrentRound : Int
  History : List GuessResult
  Status : GameStatus
deriving DecidableEq, Repr

/-- Embedding of `NewGame` (game.go): validates maxRounds and the word list,
then picks an answer among the valid words; `k` stands for the value drawn by
`rand.Intn`, reduced modulo the number of valid words. -/
def NewGame (k : Nat) (maxRounds : Int) (wordList : List GoStr) : Except Err Game :=
  if maxRounds ≤ 0 then .error .MaxRoundsNotPositive
  else if wordList.length = 0 then .error .EmptyWordList
  else
    let validWords := ((wordList.map trimSpace).filter ValidateWord).map toUpperStr
    if validWords.length = 0 then .error .NoValidWords
    else
      let answer := validWords.getD (k % validWords.length) []
      .ok { Answer := answer, MaxRounds := maxRounds, CurrentRound := 0,
            History := [], Status := .InProgress }

/-- Modelled from the spec: `game.NewGameWithAnswer`, called by
`Room.StartGame`, is not among the provided source files. Per the spec it
constructs one GameSession sharing the room's answer and maxRounds, where a
GameSession's maxRounds is a positive integer; it is deterministic in its
arguments and fails exactly when maxRounds is not positive. -/
def NewGameWithAnswer (maxRounds : Int) (answer : GoStr) : Except Err Game :=
  if maxRounds ≤ 0 then .error .MaxRoundsNotPositive
  else .ok { Answer := answer, MaxRounds := maxRounds, CurrentRound := 0,
             History := [], Status := .InProgress }

/-- Embedding of `Game.MakeGuess` (game.go): rejects a finished game, trims
and validates the raw input, normalizes case, scores the guess, and updates
round count, history and status. -/
def Game.MakeGuess (g : Game) (raw : GoStr) : Except Err (GuessResult × Game) :=
  if g.Status ≠ .InProgress then .error .GameAlreadyOver
  else
    let w := trimSpace raw
    if ¬ ValidateWord w then .error .InvalidGuess
    else
      let w := toUpperStr w
      let round := g.CurrentRound + 1
      let result : GuessResult := { Guess := w, Statuses := EvaluateGuess w g.Answer }
      let hist := g.History ++ [result]
      if w = g.Answer then
        .ok (result, { g with CurrentRound := round, History := hist, Status := .Won })
      else if round ≥ g.MaxRounds then
        .ok (result, { g with CurrentRound := round, History := hist, Status := .Lost })
      else
        .ok (result, { g with CurrentRound := round, History := hist })

/-- Status of a room (room.go `RoomStatus`). -/
inductive RoomStatus where
  | Waiting
  | Playing
  | Finished
deriving DecidableEq, Repr

/-- Status of a player within a room (room.go `PlayerStatus`). -/
inductive PlayerStatus where
  | Waiting
  | Playing
  | Won
  | Lost
deriving DecidableEq, Repr

/-- Per-guess API response recorded in a player's room history
(`api.GuessResponse`; the Go status string is modelled by `GameStatus`). -/
structure GuessResp where
  Guess : GoStr
  Results : List LetterStatus
  GameOver : Bool
  GameStatus : GameStatus
  CurrentRound : Int
  MaxRounds : Int
deriving DecidableEq, Repr

/-- Embedding of room.go's `Player`; the Go `*game.Game` pointer, nil until
the game starts, is an `Option Game`. -/
structure Player where
  ID : String
  Nickname : String
  Status : PlayerStatus
  Game : Option Game
  History : List GuessResp
  FinishTime : Int
deriving DecidableEq, Repr

/-- Embedding of room.go's `Room`. The Go pair of `Players` map and
`PlayerOrder` slice is a single association list kept in join order; its keys
are the player order and lookups are map accesses. -/
structure Room where
  ID : String
  Host : String
  Answer : GoStr
  MaxRounds : Int
  MaxPlayers : Int
  Status : RoomStatus
  Players : List (String × Player)
  Version : Int
deriving DecidableEq, Repr

/-- Map update `r.Players[pid] = p` on the association list. -/
def setPlayer (ps : List (String × Player)) (pid : String) (p : Player) :
    List (String × Player) :=
  ps.map (fun kv => if kv.1 = pid then (pid, p) else kv)

/-- Map deletion plus removal from the order slice, as in `LeaveRoom`. -/
def removePlayer (ps : List (String × Player)) (pid : String) :
    List (String × Player) :=
  ps.filter (fun kv => kv.1 != pid)

/-- The player literal constructed on create and join (room.go builds the
same struct in both places): waiting, no session, empty history. -/
def newPlayer (pid nick : String) : Player :=
  { ID := pid, Nickname := nick, Status := .Waiting, Game := none,
    History := [], FinishTime := 0 }

/-- Embedding of `RoomManager.CreateRoom` (room.go). The answer is
`wordList[GetRandomInt(len(wordList))]`; `GetRandomInt` is not among the
provided source files and is modelled from the spec as a uniform-random
selection primitive, so the drawn value is the parameter `k` reduced modulo
the list length. With an empty word list the indexing is out of range for
every possible drawn value, a run-time panic, modelled as `none`. -/
def CreateRoom (k : Nat) (playerID nickname : String) (maxPlayers maxRounds : Int)
    (wordList : List GoStr) : Option Room :=
  if wordList.isEmpty then none
  else
    let answer := wordList.getD (k % wordList.length) []
    let mp := if maxPlayers ≤ 0 ∨ maxPlayers > 8 then 4 else maxPlayers
    some { ID := "1", Host := playerID, Answer := answer, MaxRounds := maxRounds,
           MaxPlayers := mp, Status := .Waiting,
           Players := [(playerID, newPlayer playerID nickname)],
           Version := 0 }

/-- Embedding of `Room.JoinRoom`. Mutating operations return the post state
together with the error slot; an error leaves the receiver untouched, and a
success ends in `notifyUpdate`, incrementing the version. -/
def JoinRoom (r : Room) (pid nick : String) : Room × Option Err :=
  if r.Status ≠ .Waiting then (r, some .RoomNotJoinable)
  else if (r.Players.length : Int) ≥ r.MaxPlayers then (r, some .RoomFull)
  else if (r.Players.lookup pid).isSome then (r, some .DuplicatePlayer)
  else
    ({ r with
        Players := r.Players ++ [(pid, newPlayer pid nick)],
        Version := r.Version + 1 }, none)

/-- Embedding of `Room.LeaveRoom`: remove the player, reassign the host to the
first remaining player when the host left and players remain, bump version. -/
def LeaveRoom (r : Room) (pid : String) : Room × Option Err :=
  if (r.Players.lookup pid).isNone then (r, some .PlayerNotInRoom)
  else
    let ps := removePlayer r.Players pid
    let host := if r.Host = pid then
        match ps with
        | [] => r.Host
        | kv :: _ => kv.1
      else r.Host
    ({ r with Players := ps, Host := host, Version := r.Version + 1 }, none)

/-- Embedding of `Room.StartGame`: host-only, waiting-only, at least two
players; gives every player a session on the room's answer and sets everyone
playing. `NewGameWithAnswer` is deterministic in its arguments, which are the
same for every player, so a failing call fails at the first loop iteration
and no partial per-player update escapes. -/
def StartGame (r : Room) (pid : String) : Room × Option Err :=
  if pid ≠ r.Host then (r, some .NotHost)
  else if r.Status ≠ .Waiting then (r, some .AlreadyStarted)
  else if r.Players.length < 2 then (r, some .NotEnoughPlayers)
  else
    match NewGameWithAnswer r.MaxRounds r.Answer with
    | .error e => (r, some e)
    | .ok g =>
      ({ r with
          Players := r.Players.map (fun kv =>
            (kv.1, { kv.2 with Game := some g, Status := .Playing })),
          Status := .Playing,
          Version := r.Version + 1 }, none)

/-- Embedding of `Room.checkGameEnd`: the room becomes Finished when some
player has won or no player is still playing. -/
def checkGameEnd (ps : List (String × Player)) (st : RoomStatus) : RoomStatus :=
  let hasWinner := ps.any (fun kv => decide (kv.2.Status = .Won))
  let allFinished := ps.all (fun kv => decide (kv.2.Status ≠ .Playing))
  if hasWinner || allFinished then .Finished else st

/-- The API response built from an accepted guess (`Room.MakeGuess`'s
`response`, with `GameOver` from `IsGameOver` and `GameStatus` from the
post-guess session status). -/
def guessResp (result : GuessResult) (gNew : Game) : GuessResp :=
  { Guess := result.Guess, Results := result.Statuses,
    GameOver := decide (gNew.Status ≠ .InProgress),
    GameStatus := gNew.Status,
    CurrentRound := gNew.CurrentRound, MaxRounds := gNew.MaxRounds }

/-- The player after an accepted guess: the session is stored back and, when
it ended, the player's status follows it and finishTime is recorded. -/
def updatePlayerStatus (p : Player) (gNew : Game) (now : Int) : Player :=
  match gNew.Status with
  | .Won => { p with Game := some gNew, Status := .Won, FinishTime := now }
  | .Lost => { p with Game := some gNew, Status := .Lost, FinishTime := now }
  | .InProgress => { p with Game := some gNew }

/-- The room status after an accepted guess: `checkGameEnd` runs exactly when
the guessing player's session reached Won or Lost. -/
def roomStatusAfterGuess (r : Room) (ps1 : List (String × Player)) (gNew : Game) : RoomStatus :=
  match gNew.Status with
  | .InProgress => r.Status
  | _ => checkGameEnd ps1 r.Status

/-- The room after an accepted guess by player `pid` whose session became
`gNew`: player updated, end-of-race evaluated, response appended to the
player's history, version bumped. -/
def successRoom (r : Room) (pid : String) (p : Player) (gNew : Game)
    (resp : GuessResp) (now : Int) : Room :=
  let p1 := updatePlayerStatus p gNew now
  let ps1 := setPlayer r.Players pid p1
  let st1 := roomStatusAfterGuess r ps1 gNew
  let p2 := { p1 with History := p1.History ++ [resp] }
  { r with Players := setPlayer ps1 pid p2, Status := st1, Version := r.Version + 1 }

/-- Embedding of `Room.MakeGuess`. The outer `Option` models the nil-pointer
dereference `player.Game.MakeGuess` performed when the player has no session;
otherwise the result carries the post state, the error slot and the response.
The Go code updates the player's status/finishTime, runs `checkGameEnd` when
the session ended, appends the response to the player's history and bumps the
version. -/
def MakeGuess (r : Room) (pid : String) (guess : GoStr) (now : Int) :
    Option (Room × Option Err × Option GuessResp) :=
  if r.Status ≠ .Playing then some (r, some .GameNotInProgress, none)
  else
    match r.Players.lookup pid with
    | none => some (r, some .PlayerNotInRoom, none)
    | some p =>
      if p.Status ≠ .Playing then some (r, some .PlayerAlreadyFinished, none)
      else
        match p.Game with
        | none => none
        | some g =>
          match g.MakeGuess guess with
          | .error e => some (r, some e, none)
          | .ok (result, gNew) =>
            let resp := guessResp result gNew
            some (successRoom r pid p gNew resp now, none, some resp)

/-- One row of `calculateRanking`'s scratch array (room.go `playerRank`). -/
structure PlayerRank where
  playerID : String
  won : Bool
  rounds : Int
  finishTime : Int
deriving DecidableEq, Repr

/-- Comparison of `calculateRanking`'s sort: true when the second element
belongs before the first. Both the won branch and the lost branch order
rounds ascending; the source's inline comment on the lost branch reads
"More attempts is better" while the comparison it sits on is the same
fewer-rounds-first test as the won branch. -/
def shouldSwap (a b : PlayerRank) : Bool :=
  if a.won ≠ b.won then !a.won
  else if a.won then
    if a.rounds ≠ b.rounds then decide (a.rounds > b.rounds)
    else decide (a.finishTime > b.finishTime)
  else
    if a.rounds ≠ b.rounds then decide (a.rounds > b.rounds)
    else decide (a.finishTime > b.finishTime)

/-- The non-strict order the ranking sort establishes between an earlier and
a later row: Won before non-Won, then rounds ascending, then finishTime
ascending (the implemented comparison — both the won and the lost branch
compare rounds ascending). Extensionally the negation of `shouldSwap`. -/
def rankLE (a b : PlayerRank) : Prop :=
  (a.won = true ∧ b.won = false) ∨
  (a.won = b.won ∧ a.rounds < b.rounds) ∨
  (a.won = b.won ∧ a.rounds = b.rounds ∧ a.finishTime ≤ b.finishTime)

/-- One comparison/swap of the nested-loop sort at indices `i < j`. -/
def swapStep (l : List PlayerRank) (i j : Nat) : List PlayerRank :=
  match l.get? i, l.get? j with
  | some a, some b => if shouldSwap a b then (l.set i b).set j a else l
  | _, _ => l

/-- Embedding of `calculateRanking`'s nested-loop exchange sort: for every
`i`, every `j > i` is compared and swapped into place. -/
def sortRanks (l : List PlayerRank) : List PlayerRank :=
  let n := l.length
  (List.range n).foldl
    (fun acc i =>
      (List.range n).foldl
        (fun acc2 j => if i < j then swapStep acc2 i j else acc2) acc)
    l

/-- Ranking ids produced by `calculateRanking` from a scratch array presented
in some order (Go map iteration presents `r.Players` in unspecified order). -/
def rankIds (l : List PlayerRank) : List String :=
  (sortRanks l).map (fun pr => pr.playerID)

/-- One inner pass of the ranking sort: row `i` compared against every index
of `0..n-1`, with only indices above `i` compared and possibly swapped. -/
def innerFold (n i : Nat) (X : List PlayerRank) : List PlayerRank :=
  (List.range n).foldl (fun acc j => if i < j then swapStep acc i j else acc) X

/-- Invariant of the inner pass at row `i`: the row is already no worse than
every row strictly between `i` and the scan position `j`. -/
def InnerInv (i j : Nat) (Y : List PlayerRank) : Prop :=
  ∀ k a b, i < k → k < j → Y.get? i = some a → Y.get? k = some b →
    shouldSwap a b = false

/-- The inner pass changes nothing below row `i` and only rearranges the
rows from `i` on. -/
def SegPerm (i : Nat) (X Y : List PlayerRank) : Prop :=
  Y.length = X.length ∧
  (∀ k, k < i → Y.get? k = X.get? k) ∧
  (∀ k, i ≤ k → ∃ q, i ≤ q ∧ Y.get? k = X.get? q)

/-- Invariant of the outer loop: every row below `i` is already no worse than
every row after it. -/
def OutInv (i : Nat) (X : List PlayerRank) : Prop :=
  ∀ p k a b, p < i → p < k → X.get? p = some a → X.get? k = some b →
    shouldSwap a b = false

/-- The scratch array `calculateRanking` builds from the players; reading
`player.Game.CurrentRound` dereferences the session pointer, nil when no
session was created, modelled as `none`. -/
def buildRanks (ps : List (String × Player)) : Option (List PlayerRank) :=
  ps.mapM (fun kv => kv.2.Game.map (fun g =>
    { playerID := kv.2.ID, won := decide (kv.2.Status = .Won),
      rounds := g.CurrentRound, finishTime := kv.2.FinishTime }))

/-- Embedding of `Room.calculateRanking`: winner is the first ranked id, the
empty string for an empty room. -/
def Room.calculateRanking (r : Room) : Option (String × List String) :=
  (buildRanks r.Players).map (fun ranks =>
    let ranking := rankIds ranks
    (ranking.headD "", ranking))

/-- One row of the progress snapshot (`api.PlayerProgress`). -/
structure PlayerProgress where
  PlayerID : String
  Nickname : String
  CurrentRound : Int
  MaxRounds : Int
  Status : PlayerStatus
  LastGuess : Option GuessResp
  History : List GuessResp
  FinishTime : Int
deriving DecidableEq, Repr

/-- Progress snapshot (`api.RoomProgressResponse`, timestamp omitted). -/
structure RoomProgressResp where
  RoomID : String
  Status : RoomStatus
  Players : List PlayerProgress
  Version : Int
  Answer : Option GoStr
  Winner : Option String
  Ranking : Option (List String)
deriving DecidableEq, Repr

/-- Embedding of `Room.GetProgress`: per-player progress rows (the current
round read behind a nil guard), plus answer and ranking once the room is
Finished; `none` models the panic `calculateRanking` can raise there. -/
def Room.GetProgress (r : Room) : Option RoomProgressResp :=
  let pps := r.Players.map (fun kv =>
    { PlayerID := kv.2.ID, Nickname := kv.2.Nickname,
      CurrentRound := match kv.2.Game with
        | none => 0
        | some g => g.CurrentRound,
      MaxRounds := r.MaxRounds, Status := kv.2.Status,
      LastGuess := kv.2.History.getLast?, History := kv.2.History,
      FinishTime := kv.2.FinishTime })
  if r.Status = .Finished then
    match r.calculateRanking with
    | none => none
    | some (w, ranking) =>
      some { RoomID := r.ID, Status := r.Status, Players := pps,
             Version := r.Version, Answer := some r.Answer,
             Winner := some w, Ranking := some ranking }
  else
    some { RoomID := r.ID, Status := r.Status, Players := pps,
           Version := r.Version, Answer := none, Winner := none, Ranking := none }

/-- Room states reachable from `CreateRoom` through successful mutating
operations; a rejected operation returns the receiver unchanged and so stays
within the same state. -/
inductive Reachable : Room → Prop where
  | create : ∀ k pid nick mp mr wl r,
      CreateRoom k pid nick mp mr wl = some r → Reachable r
  | join : ∀ r pid nick r', Reachable r →
      JoinRoom r pid nick = (r', none) → Reachable r'
  | leave : ∀ r pid r', Reachable r →
      LeaveRoom r pid = (r', none) → Reachable r'
  | start : ∀ r pid r', Reachable r →
      StartGame r pid = (r', none) → Reachable r'
  | guess : ∀ r pid g now r' resp, Reachable r →
      MakeGuess r pid g now = some (r', none, resp) → Reachable r'

/-- The word APPLE, the single entry of the demonstration word lists. -/
def appleW : GoStr := "APPLE".toList

/-- A valid 5-letter guess sharing no letters with APPLE. -/
def wrongW : GoStr := "MUSTY".toList

/-- Fallback room for `Option.getD`; never the value actually produced in the
demonstration traces below. -/
def noRoom : Room :=
  { ID := "", Host := "", Answer := [], MaxRounds := 0, MaxPlayers := 0,
    Status := .Waiting, Players := [], Version := 0 }

/-- Demonstration trace W, step 0: host A creates a room on word list
[APPLE] with 6 rounds. -/
def roomW0 : Room := (CreateRoom 0 "A" "alice" 4 6 [appleW]).getD noRoom

/-- Trace W, step 1: B joins. -/
def roomW1 : Room := (JoinRoom roomW0 "B" "bob").1

/-- Trace W, step 2: the host starts the game. -/
def roomW2 : Room := (StartGame roomW1 "A").1

/-- Trace W, step 3: A guesses APPLE and wins; the room finishes at once. -/
def roomWon : Room := ((MakeGuess roomW2 "A" appleW 5).getD (noRoom, none, none)).1

/-- Demonstration trace L, step 0: as trace W but with a single round. -/
def roomL0 : Room := (CreateRoom 0 "A" "alice" 4 1 [appleW]).getD noRoom

/-- Trace L, step 1: B joins. -/
def roomL1 : Room := (JoinRoom roomL0 "B" "bob").1

/-- Trace L, step 2: the host starts the game. -/
def roomL2 : Room := (StartGame roomL1 "A").1

/-- Trace L, step 3: A exhausts the single round and is Lost; B still plays,
so the room stays Playing. -/
def roomL3 : Room := ((MakeGuess roomL2 "A" wrongW 10).getD (noRoom, none, none)).1

/-- Trace L, step 4a: the last still-playing player B leaves; every remaining
player is Lost. -/
def roomLLost : Room := (LeaveRoom roomL3 "B").1

/-- Trace L, step 4b: instead B also exhausts the round; everyone is Lost and
the room finishes. -/
def roomLAll : Room := ((MakeGuess roomL3 "B" wrongW 11).getD (noRoom, none, none)).1

example : roomWon.Status = .Finished := by decide

example : roomL3.Status = .Playing := by decide

example : roomLLost.Status = .Playing := by decide

example : roomLAll.Status = .Finished := by decide

example : EvaluateGuess "SPEED".toList "ERASE".toList =
    [.Present, .Miss, .Present, .Present, .Miss] := by decide

example : EvaluateGuess "GEESE".toList "ERASE".toList =
    [.Miss, .Present, .Miss, .Hit, .Hit] := by decide

/-- C1: the claim states that among two Lost players the one with MORE rounds
used ranks ahead. Evaluating the ranking computation on two Lost players with
3 and 5 rounds used places the 3-round player first: the lost branch of the
sort orders rounds ascending, exactly like the won branch, although its inline
comment reads "More attempts is better". The code contradicts the claim and
its own comment. -/
theorem C1_lost_ranking_orders_fewer_rounds_first :
    rankIds [{ playerID := "p1", won := false, rounds := 3, finishTime := 0 },
             { playerID := "p2", won := false, rounds := 5, finishTime := 0 }] =
      ["p1", "p2"] := by decide

/-- C6 counterexample: the claim states `CreateRoom` rejects an empty word
list or a non-positive maxRounds by returning an error and never crashes.
In fact `CreateRoom` with an empty word list performs out-of-range indexing
into the word list — a panic, modelled as `none`, not an error return — and
`CreateRoom` with maxRounds = -1 succeeds without any error. -/
theorem C6_createRoom_counterexample :
    CreateRoom 0 "p" "nick" 4 6 [] = none ∧
    (CreateRoom 0 "p" "nick" 4 (-1) [appleW]).isSome = true := by decide

/-- C6 amended: the deterministic rejection of a non-positive maxRounds and
of an empty word list lives in `game.NewGame` (the single-player path), which
returns an error for either input and never indexes the list; `RoomManager.CreateRoom`
performs no such validation. -/
theorem C6_newGame_validates (k : Nat) (maxRounds : Int) (wordList : List GoStr)
    (h : maxRounds ≤ 0 ∨ wordList = []) :
    NewGame k maxRounds wordList = .error .MaxRoundsNotPositive ∨
    NewGame k maxRounds wordList = .error .EmptyWordList := by
  unfold NewGame
  rcases h with h | h
  · left
    simp [h]
  · subst h
    by_cases hm : maxRounds ≤ 0
    · left
      simp [hm]
    · right
      simp [hm]

/-- C6 amended, witness at maxRounds = 0. -/
theorem C6_newGame_validates_witness :
    NewGame 0 0 [appleW] = .error .MaxRoundsNotPositive ∨
    NewGame 0 0 [appleW] = .error .EmptyWordList :=
  C6_newGame_validates 0 0 [appleW] (Or.inl (by decide))

/-- C7 counterexample: the claim states every created room's maxPlayers lies
in [2, 8], with out-of-range requests falling back to 4. A request of 1
passes the code's `maxPlayers <= 0 || maxPlayers > 8` test untouched, so the
created room has maxPlayers = 1, below the claimed bound of 2. -/
theorem C7_maxPlayers_counterexample :
    (CreateRoom 0 "p" "nick" 1 6 [appleW]).map Room.MaxPlayers = some 1 ∧
    (1 : Int) < 2 := by decide

/-- C7 amended: a created room's maxPlayers lies between 1 and 8 inclusive,
and a requested value that is non-positive or above 8 falls back to the
default of 4; a requested value of 1 is kept as is. -/
theorem C7_maxPlayers_bounds (k : Nat) (pid nick : String) (mp mr : Int)
    (wl : List GoStr) (r : Room) (h : CreateRoom k pid nick mp mr wl = some r) :
    1 ≤ r.MaxPlayers ∧ r.MaxPlayers ≤ 8 ∧ ((mp ≤ 0 ∨ 8 < mp) → r.MaxPlayers = 4) := by
  unfold CreateRoom at h
  split at h
  · exact absurd h (by simp)
  · simp only [Option.some.injEq] at h
    subst h
    simp only
    split
    · exact ⟨by omega, by omega, fun _ => rfl⟩
    · rename_i hc
      push_neg at hc
      exact ⟨by omega, by omega, fun hmp => absurd hmp (by push_neg; omega)⟩

/-- C7 amended, witness at the default request of 4. -/
theorem C7_maxPlayers_bounds_witness :
    1 ≤ roomW0.MaxPlayers ∧ roomW0.MaxPlayers ≤ 8 ∧
    (((4 : Int) ≤ 0 ∨ 8 < (4 : Int)) → roomW0.MaxPlayers = 4) :=
  C7_maxPlayers_bounds 0 "A" "alice" 4 6 [appleW] roomW0 rfl

/-- Replacing the element at `k` while prepending the element read there is a
permutation of prepending the new element. -/
theorem cons_set_perm (xs : List PlayerRank) :
    ∀ (k : Nat) (a b : PlayerRank), xs.get? k = some b →
      (b :: xs.set k a).Perm (a :: xs) := by
  induction xs with
  | nil => intro k a b hb; simp at hb
  | cons y t ih =>
    intro k a b hb
    cases k with
    | zero =>
      simp only [List.get?] at hb
      cases hb
      simpa using List.Perm.swap a y t
    | succ k =>
      simp only [List.get?] at hb
      show (b :: y :: t.set k a).Perm (a :: y :: t)
      exact ((List.Perm.swap y b _).trans ((ih k a b hb).cons y)).trans
        (List.Perm.swap a y t)

/-- Exchanging the elements at two positions is a permutation. -/
theorem set_set_perm (l : List PlayerRank) :
    ∀ (i j : Nat) (a b : PlayerRank), i < j → l.get? i = some a →
      l.get? j = some b → ((l.set i b).set j a).Perm l := by
  induction l with
  | nil => intro i j a b _ ha _; simp at ha
  | cons x t ih =>
    intro i j a b hij ha hb
    cases i with
    | zero =>
      simp only [List.get?] at ha
      cases ha
      cases j with
      | zero => omega
      | succ k =>
        simp only [List.get?] at hb
        exact cons_set_perm t k x b hb
    | succ m =>
      cases j with
      | zero => omega
      | succ k =>
        simp only [List.get?] at ha hb
        show (x :: ((t.set m b).set k a)).Perm (x :: t)
        exact (ih m k a b (by omega) ha hb).cons x

/-- A single comparison/swap of the ranking sort permutes its input. -/
theorem swapStep_perm (l : List PlayerRank) (i j : Nat) (hij : i < j) :
    (swapStep l i j).Perm l := by
  unfold swapStep
  split
  · rename_i a b ha hb
    split
    · exact set_set_perm l i j a b hij ha hb
    · exact List.Perm.refl l
  · exact List.Perm.refl l

/-- Folding any pointwise-permuting step over indices permutes the seed. -/
theorem foldl_perm_invariant (f : List PlayerRank → Nat → List PlayerRank)
    (hf : ∀ acc x, (f acc x).Perm acc) :
    ∀ (xs : List Nat) (acc : List PlayerRank), (xs.foldl f acc).Perm acc := by
  intro xs
  induction xs with
  | nil => intro acc; exact List.Perm.refl acc
  | cons x t ih => intro acc; exact (ih (f acc x)).trans (hf acc x)

/-- The ranking sort permutes its input list. -/
theorem sortRanks_perm (l : List PlayerRank) : (sortRanks l).Perm l := by
  unfold sortRanks
  apply foldl_perm_invariant
  intro acc i
  apply foldl_perm_invariant
  intro acc2 j
  split
  · rename_i hij
    exact swapStep_perm acc2 i j hij
  · exact List.Perm.refl acc2

/-- C4 counterexample: the claim states that players fully tied on status,
rounds and finishTime are ordered by player id, making the ranking a function
of the player set alone. The sort never consults the id: two fully tied
players keep whatever order Go map iteration presented them in, so the same
two-player set yields two different sequences under its two presentations. -/
theorem C4_no_id_tiebreak :
    rankIds [{ playerID := "a", won := false, rounds := 4, finishTime := 7 },
             { playerID := "b", won := false, rounds := 4, finishTime := 7 }] = ["a", "b"] ∧
    rankIds [{ playerID := "b", won := false, rounds := 4, finishTime := 7 },
             { playerID := "a", won := false, rounds := 4, finishTime := 7 }] = ["b", "a"] ∧
    (["a", "b"] : List String) ≠ ["b", "a"] := by decide

/-- The sort comparison holds exactly when the second row is strictly better
than the first under the implemented keys. -/
theorem shouldSwap_true_iff (a b : PlayerRank) :
    shouldSwap a b = true ↔
    ((a.won = false ∧ b.won = true) ∨
     (a.won = b.won ∧ b.rounds < a.rounds) ∨
     (a.won = b.won ∧ a.rounds = b.rounds ∧ b.finishTime < a.finishTime)) := by
  unfold shouldSwap
  cases ha : a.won <;> cases hb : b.won <;> simp [ha, hb] <;> split_ifs <;>
    (try simp) <;> omega

/-- The sort comparison fails exactly on `rankLE`-ordered pairs. -/
theorem shouldSwap_false_iff (a b : PlayerRank) :
    shouldSwap a b = false ↔ rankLE a b := by
  unfold rankLE
  rw [← Bool.not_eq_true, shouldSwap_true_iff]
  cases ha : a.won <;> cases hb : b.won <;> simp [ha, hb] <;> omega

/-- The sort comparison never holds in both directions. -/
theorem shouldSwap_asymm {a b : PlayerRank} (h : shouldSwap a b = true) :
    shouldSwap b a = false := by
  rw [shouldSwap_true_iff] at h
  rw [shouldSwap_false_iff]
  unfold rankLE
  cases ha : a.won <;> cases hb : b.won <;> simp [ha, hb] at h ⊢ <;> omega

/-- A row strictly better than `a` inherits every non-swap `a` enjoys. -/
theorem shouldSwap_le_of_lt_of_le {a b c : PlayerRank}
    (h1 : shouldSwap a b = true) (h2 : shouldSwap a c = false) :
    shouldSwap b c = false := by
  rw [shouldSwap_true_iff] at h1
  rw [shouldSwap_false_iff] at h2 ⊢
  unfold rankLE at h2 ⊢
  cases ha : a.won <;> cases hb : b.won <;> cases hc : c.won <;>
    simp [ha, hb, hc] at h1 h2 ⊢ <;> omega

/-- A position holding a value is inside the list. -/
theorem get?_some_lt {l : List PlayerRank} {n : Nat} {a : PlayerRank}
    (h : l.get? n = some a) : n < l.length := by
  by_contra hc
  rw [List.get?_eq_none.mpr (by omega)] at h
  exact absurd h (by simp)

/-- A comparison/swap step either leaves the list alone — and then the two
positions, when populated, were already in order — or exchanges the two
out-of-order values and touches nothing else. -/
theorem swapStep_spec (Y : List PlayerRank) (i j : Nat) (hij : i < j) :
    (swapStep Y i j = Y ∧
      ∀ x y, Y.get? i = some x → Y.get? j = some y → shouldSwap x y = false) ∨
    ∃ x y, Y.get? i = some x ∧ Y.get? j = some y ∧ shouldSwap x y = true ∧
      (swapStep Y i j).get? i = some y ∧ (swapStep Y i j).get? j = some x ∧
      (∀ k, k ≠ i → k ≠ j → (swapStep Y i j).get? k = Y.get? k) ∧
      (swapStep Y i j).length = Y.length := by
  unfold swapStep
  split
  · rename_i x y hyi hyj
    split
    · rename_i hsw
      right
      have hilen : i < Y.length := get?_some_lt hyi
      have hjlen : j < Y.length := get?_some_lt hyj
      refine ⟨x, y, hyi, hyj, hsw, ?_, ?_, ?_, by simp⟩
      · rw [List.get?_set_ne x (Y.set i y) (show j ≠ i by omega)]
        exact List.get?_set_eq_of_lt y hilen
      · exact List.get?_set_eq_of_lt x (by simpa using hjlen)
      · intro k hki hkj
        rw [List.get?_set_ne x (Y.set i y) (fun h => hkj h.symm),
          List.get?_set_ne y Y (fun h => hki h.symm)]
    · rename_i hsw
      left
      refine ⟨rfl, fun x' y' hx hy => ?_⟩
      rw [hyi] at hx
      rw [hyj] at hy
      simp only [Option.some.injEq] at hx hy
      rw [← hx, ← hy]
      exact Bool.not_eq_true _ ▸ hsw
  · rename_i hno
    left
    refine ⟨rfl, fun x y hx hy => ?_⟩
    exact (hno x y hx hy).elim

/-- A comparison/swap at `(i, j)` extends the inner invariant past `j`. -/
theorem innerInv_swap (i j : Nat) (hij : i < j) (Y : List PlayerRank)
    (h : InnerInv i j Y) : InnerInv i (j + 1) (swapStep Y i j) := by
  rcases swapStep_spec Y i j hij with ⟨heq, hord⟩ |
    ⟨x, y, hyi, hyj, hsw, hzi, hzj, hzk, _⟩
  · rw [heq]
    intro k a b hik hkj hgi hgk
    rcases Nat.lt_or_ge k j with hk | hk
    · exact h k a b hik hk hgi hgk
    · have hkj' : k = j := by omega
      subst hkj'
      exact hord a b hgi hgk
  · intro k a b hik hkj hgi hgk
    have ha : a = y := by
      rw [hzi] at hgi
      simpa using hgi.symm
    subst ha
    rcases Nat.lt_or_ge k j with hk | hk
    · have hgk' : Y.get? k = some b := by
        rw [← hzk k (by omega) (by omega)]
        exact hgk
      exact shouldSwap_le_of_lt_of_le hsw (h k x b hik hk hyi hgk')
    · have hkj' : k = j := by omega
      subst hkj'
      have hb : b = x := by
        rw [hzj] at hgk
        simpa using hgk.symm
      subst hb
      exact shouldSwap_asymm hsw

/-- A skipped index at or below `i` extends the inner invariant vacuously. -/
theorem innerInv_extend (i j : Nat) (hji : ¬ i < j) (Y : List PlayerRank)
    (h : InnerInv i j Y) : InnerInv i (j + 1) Y := by
  intro k a b hik hkj hgi hgk
  rcases Nat.lt_or_ge k j with hk | hk
  · exact h k a b hik hk hgi hgk
  · exact absurd hik (by omega)

/-- Folding an invariant-preserving step over a contiguous index range. -/
theorem foldl_range'_invariant (f : List PlayerRank → Nat → List PlayerRank)
    (P : Nat → List PlayerRank → Prop)
    (hstep : ∀ j Y, P j Y → P (j + 1) (f Y j)) :
    ∀ (len s : Nat) (Y : List PlayerRank), P s Y →
      P (s + len) ((List.range' s len).foldl f Y) := by
  intro len
  induction len with
  | zero => intro s Y h; simpa using h
  | succ m ih =>
    intro s Y h
    rw [List.range'_succ s m 1, List.foldl_cons]
    have hres := ih (s + 1) (f Y s) (hstep s Y h)
    have harith : s + (m + 1) = s + 1 + m := by omega
    rw [harith]
    exact hres

/-- After the inner pass at row `i`, the row is no worse than every later
row. -/
theorem innerFold_innerInv (n i : Nat) (X : List PlayerRank) :
    InnerInv i n (innerFold n i X) := by
  unfold innerFold
  rw [List.range_eq_range' n]
  have hstep : ∀ j Y, InnerInv i j Y →
      InnerInv i (j + 1) (if i < j then swapStep Y i j else Y) := by
    intro j Y h
    by_cases hij : i < j
    · rw [if_pos hij]
      exact innerInv_swap i j hij Y h
    · rw [if_neg hij]
      exact innerInv_extend i j hij Y h
  have hbase : InnerInv i 0 X := fun k a b _ hk0 _ _ => absurd hk0 (by omega)
  simpa using foldl_range'_invariant _ (InnerInv i) hstep n 0 X hbase

/-- The segment relation is reflexive. -/
theorem segPerm_refl (i : Nat) (X : List PlayerRank) : SegPerm i X X :=
  ⟨rfl, fun _ _ => rfl, fun k hk => ⟨k, hk, rfl⟩⟩

/-- The segment relation composes. -/
theorem segPerm_trans {i : Nat} {X Y Z : List PlayerRank}
    (h1 : SegPerm i X Y) (h2 : SegPerm i Y Z) : SegPerm i X Z := by
  refine ⟨h2.1.trans h1.1, fun k hk => (h2.2.1 k hk).trans (h1.2.1 k hk),
    fun k hk => ?_⟩
  obtain ⟨q, hq, he⟩ := h2.2.2 k hk
  obtain ⟨q2, hq2, he2⟩ := h1.2.2 q hq
  exact ⟨q2, hq2, he.trans he2⟩

/-- A comparison/swap at `(i, j)` respects the segment relation at `i`. -/
theorem swapStep_segPerm (i j : Nat) (hij : i < j) (Y : List PlayerRank) :
    SegPerm i Y (swapStep Y i j) := by
  rcases swapStep_spec Y i j hij with ⟨heq, _⟩ |
    ⟨x, y, hyi, hyj, hsw, hzi, hzj, hzk, hzl⟩
  · rw [heq]
    exact segPerm_refl i Y
  · refine ⟨hzl, fun k hk => hzk k (by omega) (by omega), fun k hk => ?_⟩
    by_cases hki : k = i
    · subst hki
      exact ⟨j, by omega, hzi.trans hyj.symm⟩
    · by_cases hkj : k = j
      · subst hkj
        exact ⟨i, Nat.le_refl i, hzj.trans hyi.symm⟩
      · exact ⟨k, hk, hzk k hki hkj⟩

/-- Folding pointwise-related steps stays within the relation's closure. -/
theorem foldl_preserves_rel (f : List PlayerRank → Nat → List PlayerRank)
    (R : List PlayerRank → List PlayerRank → Prop)
    (hrefl : ∀ Y, R Y Y)
    (htrans : ∀ X Y Z, R X Y → R Y Z → R X Z)
    (hstep : ∀ Y j, R Y (f Y j)) :
    ∀ (js : List Nat) (Y : List PlayerRank), R Y (js.foldl f Y) := by
  intro js
  induction js with
  | nil => intro Y; exact hrefl Y
  | cons j t ih =>
    intro Y
    rw [List.foldl_cons]
    exact htrans Y (f Y j) _ (hstep Y j) (ih (f Y j))

/-- The whole inner pass respects the segment relation at its row. -/
theorem innerFold_segPerm (n i : Nat) (X : List PlayerRank) :
    SegPerm i X (innerFold n i X) := by
  unfold innerFold
  apply foldl_preserves_rel _ (SegPerm i) (segPerm_refl i)
    (fun _ _ _ h1 h2 => segPerm_trans h1 h2)
  intro Y j
  by_cases hij : i < j
  · rw [if_pos hij]
    exact swapStep_segPerm i j hij Y
  · rw [if_neg hij]
    exact segPerm_refl i Y

/-- One outer iteration: rows already placed stay in order relative to the
rearranged tail, and the freshly scanned row joins them. -/
theorem outInv_step (n i : Nat) (X : List PlayerRank) (hlen : X.length = n)
    (h : OutInv i X) :
    OutInv (i + 1) (innerFold n i X) ∧ (innerFold n i X).length = n := by
  have hseg := innerFold_segPerm n i X
  have hinner := innerFold_innerInv n i X
  have hlen' : (innerFold n i X).length = n := hseg.1.trans hlen
  refine ⟨?_, hlen'⟩
  intro p k a b hp hpk hgp hgk
  rcases Nat.lt_or_ge p i with hpi | hpi
  · have hgp' : X.get? p = some a := by
      rw [← hseg.2.1 p hpi]
      exact hgp
    rcases Nat.lt_or_ge k i with hki | hki
    · have hgk' : X.get? k = some b := by
        rw [← hseg.2.1 k hki]
        exact hgk
      exact h p k a b hpi hpk hgp' hgk'
    · obtain ⟨q, hq, he⟩ := hseg.2.2 k hki
      have hgk' : X.get? q = some b := by
        rw [← he]
        exact hgk
      exact h p q a b hpi (by omega) hgp' hgk'
  · have hpe : p = i := by omega
    rw [hpe] at hpk hgp
    rcases Nat.lt_or_ge k n with hkn | hkn
    · exact hinner k a b hpk hkn hgp hgk
    · have hnone : (innerFold n i X).get? k = none :=
        List.get?_eq_none.mpr (by omega)
      rw [hnone] at hgk
      exact absurd hgk (by simp)

/-- The finished sort is pairwise ordered at the level of positions. -/
theorem sortRanks_outInv (l : List PlayerRank) :
    OutInv l.length (sortRanks l) ∧ (sortRanks l).length = l.length := by
  have hsr : sortRanks l =
      (List.range l.length).foldl (fun acc i => innerFold l.length i acc) l := rfl
  rw [hsr, List.range_eq_range' l.length]
  have hbase : OutInv 0 l := fun p k a b hp _ _ _ => absurd hp (by omega)
  have hres := foldl_range'_invariant (fun acc i => innerFold l.length i acc)
    (fun i X => OutInv i X ∧ X.length = l.length)
    (fun i Y hY => outInv_step l.length i Y hY.2 hY.1) l.length 0 l ⟨hbase, rfl⟩
  simpa using hres

/-- The ranking sort orders its output by `rankLE`. -/
theorem sortRanks_pairwise (l : List PlayerRank) :
    (sortRanks l).Pairwise rankLE := by
  obtain ⟨hout, hlen⟩ := sortRanks_outInv l
  rw [List.pairwise_iff_get]
  intro p q hpq
  have hgp : (sortRanks l).get? p.val = some ((sortRanks l).get p) :=
    List.get?_eq_get p.isLt
  have hgq : (sortRanks l).get? q.val = some ((sortRanks l).get q) :=
    List.get?_eq_get q.isLt
  have hpl : p.val < l.length := by
    have := p.isLt
    omega
  exact (shouldSwap_false_iff _ _).mp
    (hout p.val q.val _ _ hpl hpq hgp hgq)

/-- C4 amended: for each presentation order of the players' scratch rows (Go
map iteration order, which is not deterministic), calculateRanking's sort
deterministically returns a permutation of the presented rows that is sorted
by the implemented comparison — Won players before non-Won, then rounds
ascending, then finishTime ascending (ascending in both branches, see C1) —
so every earlier-ranked row compares no worse, under `rankLE`, than every
later row. Rows fully tied on all three keys can come out in either order
depending on the presentation (there is no player-id tiebreak), and the
ranking ids are a permutation of the presented ids, not a function of the
player set. -/
theorem C4_ranking_sorted_permutation (l : List PlayerRank) :
    (sortRanks l).Perm l ∧
    (sortRanks l).Pairwise rankLE ∧
    (rankIds l).Perm (l.map (fun pr => pr.playerID)) := by
  refine ⟨sortRanks_perm l, sortRanks_pairwise l, ?_⟩
  unfold rankIds
  exact (sortRanks_perm l).map _

/-- C2: each of the four mutating room operations increments the version by
exactly 1 when it succeeds (error slot empty) and leaves the version — indeed
the whole room — unchanged when it fails: every rejection path returns before
`notifyUpdate`. -/
theorem C2_version_discipline (r : Room) :
    (∀ pid nick,
      ((JoinRoom r pid nick).2 = none → (JoinRoom r pid nick).1.Version = r.Version + 1) ∧
      ((JoinRoom r pid nick).2 ≠ none → (JoinRoom r pid nick).1 = r)) ∧
    (∀ pid,
      ((LeaveRoom r pid).2 = none → (LeaveRoom r pid).1.Version = r.Version + 1) ∧
      ((LeaveRoom r pid).2 ≠ none → (LeaveRoom r pid).1 = r)) ∧
    (∀ pid,
      ((StartGame r pid).2 = none → (StartGame r pid).1.Version = r.Version + 1) ∧
      ((StartGame r pid).2 ≠ none → (StartGame r pid).1 = r)) ∧
    (∀ pid guess now out, MakeGuess r pid guess now = some out →
      (out.2.1 = none → out.1.Version = r.Version + 1) ∧
      (out.2.1 ≠ none → out.1 = r)) := by
  refine ⟨fun pid nick => ?_, fun pid => ?_, fun pid => ?_, fun pid guess now out h => ?_⟩
  · unfold JoinRoom
    split
    · simp
    · split
      · simp
      · split <;> simp
  · unfold LeaveRoom
    split <;> simp
  · unfold StartGame
    split
    · simp
    · split
      · simp
      · split
        · simp
        · split <;> simp
  · unfold MakeGuess at h
    split at h
    · simp only [Option.some.injEq] at h
      subst h
      simp
    · split at h
      · simp only [Option.some.injEq] at h
        subst h
        simp
      · split at h
        · simp only [Option.some.injEq] at h
          subst h
          simp
        · split at h
          · exact absurd h (by simp)
          · split at h
            · simp only [Option.some.injEq] at h
              subst h
              simp
            · simp only [Option.some.injEq] at h
              subst h
              simp [successRoom]

/-- C2 witness: B joining the fresh trace-W room succeeds and bumps the
version from 0 to 1. -/
theorem C2_version_discipline_witness :
    (JoinRoom roomW0 "B" "bob").1.Version = roomW0.Version + 1 :=
  ((C2_version_discipline roomW0).1 "B" "bob").1 (by decide)

/-- A demonstration game session on answer APPLE, still in progress. -/
def demoGame : Game :=
  { Answer := appleW, MaxRounds := 6, CurrentRound := 0, History := [],
    Status := .InProgress }

/-- C8: for an in-progress game session, `Game.MakeGuess` fails with
InvalidGuess exactly when the trimmed raw input is not 5 alphabetic
characters; the accepting side of the test is case-insensitive (letters of
either case pass, normalization to uppercase happens after validation), so
case alone never causes rejection. -/
theorem C8_invalid_guess_iff (g : Game) (raw : GoStr) (h : g.Status = .InProgress) :
    Game.MakeGuess g raw = .error .InvalidGuess ↔
    ¬ ((trimSpace raw).length = 5 ∧ ∀ c ∈ trimSpace raw, c.isAlpha = true) := by
  unfold Game.MakeGuess
  rw [if_neg (by simp [h])]
  by_cases hv : ValidateWord (trimSpace raw) = true
  · rw [if_neg (by simp [hv])]
    have hrhs : (trimSpace raw).length = 5 ∧ ∀ c ∈ trimSpace raw, c.isAlpha = true := by
      simpa [ValidateWord] using hv
    constructor
    · intro he
      dsimp only at he
      exfalso
      split at he
      · exact absurd he (by simp)
      · split at he <;> exact absurd he (by simp)
    · intro hc
      exact absurd hrhs hc
  · rw [if_pos (by simpa using hv)]
    have hrhs : ¬ ((trimSpace raw).length = 5 ∧ ∀ c ∈ trimSpace raw, c.isAlpha = true) := by
      intro hc
      exact hv (by simpa [ValidateWord, hc.1] using hc.2)
    simp [hrhs]

/-- C8 witness: a guess containing a digit is rejected as InvalidGuess. -/
theorem C8_invalid_guess_iff_witness :
    Game.MakeGuess demoGame "AB1DE".toList = .error .InvalidGuess :=
  (C8_invalid_guess_iff demoGame "AB1DE".toList rfl).mpr (by decide)

/-- A successful association-list lookup locates an entry of the list. -/
theorem lookup_some_mem (ps : List (String × Player)) (pid : String) (p : Player)
    (h : ps.lookup pid = some p) : (pid, p) ∈ ps := by
  induction ps with
  | nil => simp [List.lookup] at h
  | cons kv t ih =>
    rw [List.lookup] at h
    rcases hbeq : pid == kv.1 with _ | _
    · rw [hbeq] at h
      exact List.mem_cons_of_mem kv (ih h)
    · rw [hbeq] at h
      simp only [Option.some.injEq] at h
      have hk : pid = kv.1 := by simpa using hbeq
      subst h
      rw [hk]
      exact List.mem_cons_self kv t

/-- Entries of a player-map update: the written entry or an untouched entry
under a different key. -/
theorem mem_setPlayer_cases {ps : List (String × Player)} {pid : String}
    {q : Player} {kv : String × Player} (h : kv ∈ setPlayer ps pid q) :
    kv = (pid, q) ∨ (kv ∈ ps ∧ kv.1 ≠ pid) := by
  unfold setPlayer at h
  rcases List.mem_map.mp h with ⟨e, he, heq⟩
  by_cases hk : e.1 = pid
  · left
    rw [if_pos hk] at heq
    exact heq.symm
  · right
    rw [if_neg hk] at heq
    subst heq
    exact ⟨he, hk⟩

/-- Writing a key that is present makes the written entry a member. -/
theorem setPlayer_mem_self {ps : List (String × Player)} {pid : String}
    {p q : Player} (h : (pid, p) ∈ ps) : (pid, q) ∈ setPlayer ps pid q :=
  List.mem_map.mpr ⟨(pid, p), h, by simp⟩

/-- Entries under other keys survive a player-map update. -/
theorem mem_setPlayer_of_ne {ps : List (String × Player)} {pid : String}
    {q : Player} {kv : String × Player} (h : kv ∈ ps) (hne : kv.1 ≠ pid) :
    kv ∈ setPlayer ps pid q :=
  List.mem_map.mpr ⟨kv, h, by simp [hne]⟩

/-- Two successive updates of the same key collapse to the second. -/
theorem setPlayer_setPlayer (ps : List (String × Player)) (pid : String)
    (a b : Player) : setPlayer (setPlayer ps pid a) pid b = setPlayer ps pid b := by
  unfold setPlayer
  rw [List.map_map]
  apply List.map_congr_left
  intro kv _
  by_cases hk : kv.1 = pid
  · simp [hk]
  · simp [hk]

/-- A member with status Won makes `checkGameEnd` return Finished. -/
theorem checkGameEnd_of_won {ps : List (String × Player)} {st : RoomStatus}
    (kv : String × Player) (hmem : kv ∈ ps) (hw : kv.2.Status = .Won) :
    checkGameEnd ps st = .Finished := by
  unfold checkGameEnd
  have hany : ps.any (fun kv => decide (kv.2.Status = .Won)) = true :=
    List.any_eq_true.mpr ⟨kv, hmem, by simp [hw]⟩
  simp [hany]

/-- When no member is still playing, `checkGameEnd` returns Finished. -/
theorem checkGameEnd_of_none_playing {ps : List (String × Player)} {st : RoomStatus}
    (h : ∀ kv ∈ ps, kv.2.Status ≠ .Playing) : checkGameEnd ps st = .Finished := by
  unfold checkGameEnd
  have hall : ps.all (fun kv => decide (kv.2.Status ≠ .Playing)) = true :=
    List.all_eq_true.mpr (fun kv hm => by simp [h kv hm])
  dsimp only
  rw [hall]
  simp

/-- Shape of a room produced by `CreateRoom`. -/
theorem createRoom_some {k : Nat} {pid nick : String} {mp mr : Int}
    {wl : List GoStr} {r : Room} (h : CreateRoom k pid nick mp mr wl = some r) :
    r.Status = .Waiting ∧ r.Players = [(pid, newPlayer pid nick)] := by
  unfold CreateRoom at h
  split at h
  · exact absurd h (by simp)
  · simp only [Option.some.injEq] at h
    subst h
    exact ⟨rfl, rfl⟩

/-- Shape of a successful `JoinRoom`. -/
theorem joinRoom_success {r : Room} {pid nick : String} {r' : Room}
    (h : JoinRoom r pid nick = (r', none)) :
    r.Status = .Waiting ∧
    r' = { r with Players := r.Players ++ [(pid, newPlayer pid nick)],
                  Version := r.Version + 1 } := by
  unfold JoinRoom at h
  split at h
  · exact absurd h (by simp)
  · split at h
    · exact absurd h (by simp)
    · split at h
      · exact absurd h (by simp)
      · rename_i h1 _ _
        simp only [Prod.mk.injEq, and_true] at h
        exact ⟨not_not.mp h1, h.symm⟩

/-- Shape of a successful `LeaveRoom`: players filtered, status untouched. -/
theorem leaveRoom_success {r : Room} {pid : String} {r' : Room}
    (h : LeaveRoom r pid = (r', none)) :
    r'.Status = r.Status ∧ r'.Players = removePlayer r.Players pid := by
  unfold LeaveRoom at h
  split at h
  · exact absurd h (by simp)
  · simp only [Prod.mk.injEq, and_true] at h
    subst h
    exact ⟨rfl, rfl⟩

/-- Shape of a successful `StartGame`: the room was Waiting, one session is
built per player on the shared answer, everyone plays. -/
theorem startGame_success {r : Room} {pid : String} {r' : Room}
    (h : StartGame r pid = (r', none)) :
    r.Status = .Waiting ∧
    ∃ gg, NewGameWithAnswer r.MaxRounds r.Answer = .ok gg ∧
      r'.Status = .Playing ∧
      r'.Players = r.Players.map (fun kv =>
        (kv.1, { kv.2 with Game := some gg, Status := .Playing })) := by
  unfold StartGame at h
  split at h
  · exact absurd h (by simp)
  · split at h
    · exact absurd h (by simp)
    · split at h
      · exact absurd h (by simp)
      · rename_i h1 h2 _
        split at h
        · exact absurd h (by simp)
        · rename_i gg hgg
          simp only [Prod.mk.injEq, and_true] at h
          subst h
          exact ⟨not_not.mp h2, gg, hgg, rfl, rfl⟩

/-- Shape of a successful `Room.MakeGuess`. -/
theorem makeGuess_success {r : Room} {pid : String} {guess : GoStr} {now : Int}
    {r' : Room} {resp : Option GuessResp}
    (h : MakeGuess r pid guess now = some (r', none, resp)) :
    ∃ p g0 result gNew,
      r.Status = .Playing ∧
      r.Players.lookup pid = some p ∧
      p.Status = .Playing ∧
      p.Game = some g0 ∧
      g0.MakeGuess guess = .ok (result, gNew) ∧
      r' = successRoom r pid p gNew (guessResp result gNew) now := by
  unfold MakeGuess at h
  split at h
  · exact absurd h (by simp)
  · rename_i h1
    split at h
    · exact absurd h (by simp)
    · rename_i p hp
      split at h
      · exact absurd h (by simp)
      · rename_i h2
        split at h
        · exact absurd h (by simp)
        · rename_i g0 hg0
          split at h
          · exact absurd h (by simp)
          · rename_i pr result gNew hmk
            simp only [Option.some.injEq, Prod.mk.injEq] at h
            exact ⟨p, g0, result, gNew, not_not.mp h1, hp, not_not.mp h2, hg0,
              hmk, h.1.symm⟩

/-- Players of the room after an accepted guess: a single map update writing
the updated player with the response appended. -/
theorem successRoom_players (r : Room) (pid : String) (p : Player) (gNew : Game)
    (resp : GuessResp) (now : Int) :
    (successRoom r pid p gNew resp now).Players =
      setPlayer r.Players pid
        { updatePlayerStatus p gNew now with
            History := (updatePlayerStatus p gNew now).History ++ [resp] } := by
  unfold successRoom
  exact setPlayer_setPlayer ..

/-- Status of the room after an accepted guess. -/
theorem successRoom_status (r : Room) (pid : String) (p : Player) (gNew : Game)
    (resp : GuessResp) (now : Int) :
    (successRoom r pid p gNew resp now).Status =
      roomStatusAfterGuess r (setPlayer r.Players pid (updatePlayerStatus p gNew now)) gNew :=
  rfl

/-- Invariant: in every reachable room a Won player forces status Finished.
A player first reaches Won inside `Room.MakeGuess`, which immediately runs
`checkGameEnd`; no other operation produces a Won status or leaves Finished. -/
theorem reachable_won_finished (r : Room) (hr : Reachable r) :
    (∃ kv ∈ r.Players, kv.2.Status = .Won) → r.Status = .Finished := by
  induction hr with
  | create k pid nick mp mr wl r0 h =>
    obtain ⟨hst, hps⟩ := createRoom_some h
    rintro ⟨kv, hmem, hwon⟩
    rw [hps] at hmem
    simp only [List.mem_singleton] at hmem
    rw [hmem] at hwon
    simp [newPlayer] at hwon
  | join r0 pid nick r1 hr0 hop ih =>
    obtain ⟨hw0, hr1⟩ := joinRoom_success hop
    subst hr1
    rintro ⟨kv, hmem, hwon⟩
    dsimp only at hmem
    rcases List.mem_append.mp hmem with hmem | hmem
    · have hfin := ih ⟨kv, hmem, hwon⟩
      rw [hw0] at hfin
      exact absurd hfin (by decide)
    · simp only [List.mem_singleton] at hmem
      rw [hmem] at hwon
      simp [newPlayer] at hwon
  | leave r0 pid r1 hr0 hop ih =>
    obtain ⟨hst, hps⟩ := leaveRoom_success hop
    rintro ⟨kv, hmem, hwon⟩
    rw [hps] at hmem
    unfold removePlayer at hmem
    rw [hst]
    exact ih ⟨kv, (List.mem_filter.mp hmem).1, hwon⟩
  | start r0 pid r1 hr0 hop ih =>
    obtain ⟨hw0, gg, hgg, hst1, hps1⟩ := startGame_success hop
    rintro ⟨kv, hmem, hwon⟩
    rw [hps1] at hmem
    rcases List.mem_map.mp hmem with ⟨e, _, heq⟩
    rw [← heq] at hwon
    simp at hwon
  | guess r0 pid g now r1 resp hr0 hop ih =>
    obtain ⟨p, g0, result, gNew, hplay, hlook, hpstat, hgame, hmk, hr1⟩ :=
      makeGuess_success hop
    subst hr1
    have hnw : ¬ ∃ kv ∈ r0.Players, kv.2.Status = .Won := by
      intro hex
      have hfin := ih hex
      rw [hplay] at hfin
      exact absurd hfin (by decide)
    rintro ⟨kv, hmem, hwon⟩
    rw [successRoom_players] at hmem
    rw [successRoom_status]
    rcases mem_setPlayer_cases hmem with heq | ⟨hmem0, hne⟩
    · rcases hgs : gNew.Status with _ | _ | _
      · rw [heq] at hwon
        simp [updatePlayerStatus, hgs, hpstat] at hwon
      · simp only [roomStatusAfterGuess, hgs]
        apply checkGameEnd_of_won (pid, updatePlayerStatus p gNew now)
        · exact setPlayer_mem_self (lookup_some_mem _ _ _ hlook)
        · simp [updatePlayerStatus, hgs]
      · rw [heq] at hwon
        simp [updatePlayerStatus, hgs] at hwon
    · exact absurd ⟨kv, hmem0, hwon⟩ hnw

/-- Invariant: in every reachable room that is Playing or Finished, every
player holds a session. Sessions are created for everyone by a successful
`StartGame`, players can join only a Waiting room, and a guess stores the
session back. -/
theorem reachable_games_ready (r : Room) (hr : Reachable r) :
    (r.Status = .Playing ∨ r.Status = .Finished) →
    ∀ kv ∈ r.Players, kv.2.Game ≠ none := by
  induction hr with
  | create k pid nick mp mr wl r0 h =>
    obtain ⟨hst, _⟩ := createRoom_some h
    intro hs
    rw [hst] at hs
    rcases hs with hs | hs <;> exact absurd hs (by decide)
  | join r0 pid nick r1 hr0 hop ih =>
    obtain ⟨hw0, hr1⟩ := joinRoom_success hop
    subst hr1
    intro hs
    dsimp only at hs
    rw [hw0] at hs
    rcases hs with hs | hs <;> exact absurd hs (by decide)
  | leave r0 pid r1 hr0 hop ih =>
    obtain ⟨hst, hps⟩ := leaveRoom_success hop
    intro hs kv hmem
    rw [hps] at hmem
    rw [hst] at hs
    exact ih hs kv (List.mem_filter.mp hmem).1
  | start r0 pid r1 hr0 hop ih =>
    obtain ⟨hw0, gg, hgg, hst1, hps1⟩ := startGame_success hop
    intro hs kv hmem
    rw [hps1] at hmem
    rcases List.mem_map.mp hmem with ⟨e, _, heq⟩
    rw [← heq]
    simp
  | guess r0 pid g now r1 resp hr0 hop ih =>
    obtain ⟨p, g0, result, gNew, hplay, hlook, hpstat, hgame, hmk, hr1⟩ :=
      makeGuess_success hop
    subst hr1
    intro hs kv hmem
    rw [successRoom_players] at hmem
    rcases mem_setPlayer_cases hmem with heq | ⟨hmem0, hne⟩
    · rw [heq]
      rcases hgs : gNew.Status with _ | _ | _ <;> simp [updatePlayerStatus, hgs]
    · exact ih (Or.inl hplay) kv hmem0

/-- C3: in every reachable room in which some player has won, the room status
is Finished, and any `MakeGuess` call on that room — by any player, with any
guess — returns the GameNotInProgress error and leaves the room unchanged. -/
theorem C3_win_ends_race (r : Room) (hr : Reachable r)
    (hw : ∃ kv ∈ r.Players, kv.2.Status = .Won) :
    r.Status = .Finished ∧
    ∀ pid guess now, MakeGuess r pid guess now =
      some (r, some .GameNotInProgress, none) := by
  have hf := reachable_won_finished r hr hw
  refine ⟨hf, fun pid guess now => ?_⟩
  unfold MakeGuess
  rw [if_pos (by simp [hf])]

/-- Trace W step 0 is reachable: it is created by `CreateRoom`. -/
theorem reachable_roomW0 : Reachable roomW0 :=
  Reachable.create 0 "A" "alice" 4 6 [appleW] roomW0 rfl

/-- Trace W step 1 is reachable via a successful join. -/
theorem reachable_roomW1 : Reachable roomW1 :=
  Reachable.join roomW0 "B" "bob" roomW1 reachable_roomW0 rfl

/-- Trace W step 2 is reachable via a successful start. -/
theorem reachable_roomW2 : Reachable roomW2 :=
  Reachable.start roomW1 "A" roomW2 reachable_roomW1 rfl

/-- Trace W step 3 is reachable via A's winning guess. -/
theorem reachable_roomWon : Reachable roomWon :=
  Reachable.guess roomW2 "A" appleW 5 roomWon
    (((MakeGuess roomW2 "A" appleW 5).getD (noRoom, none, none)).2.2)
    reachable_roomW2 rfl

/-- Trace L step 0 is reachable. -/
theorem reachable_roomL0 : Reachable roomL0 :=
  Reachable.create 0 "A" "alice" 4 1 [appleW] roomL0 rfl

/-- Trace L step 1 is reachable via a successful join. -/
theorem reachable_roomL1 : Reachable roomL1 :=
  Reachable.join roomL0 "B" "bob" roomL1 reachable_roomL0 rfl

/-- Trace L step 2 is reachable via a successful start. -/
theorem reachable_roomL2 : Reachable roomL2 :=
  Reachable.start roomL1 "A" roomL2 reachable_roomL1 rfl

/-- Trace L step 3 is reachable via A's losing guess. -/
theorem reachable_roomL3 : Reachable roomL3 :=
  Reachable.guess roomL2 "A" wrongW 10 roomL3
    (((MakeGuess roomL2 "A" wrongW 10).getD (noRoom, none, none)).2.2)
    reachable_roomL2 rfl

/-- Trace L step 4a is reachable via B's leave. -/
theorem reachable_roomLLost : Reachable roomLLost :=
  Reachable.leave roomL3 "B" roomLLost reachable_roomL3 rfl

/-- C3 witness: in the finished trace-W room, where A has won, B's guess is
rejected as GameNotInProgress with the room unchanged. -/
theorem C3_win_ends_race_witness :
    roomWon.Status = .Finished ∧
    ∀ pid guess now, MakeGuess roomWon pid guess now =
      some (roomWon, some .GameNotInProgress, none) :=
  C3_win_ends_race roomWon reachable_roomWon (by decide)

/-- C5 counterexample: the claim states every reachable room whose players
are all in a terminal status — including states reached when `LeaveRoom`
removes the last Playing player — is Finished. In trace L, A is Lost and the
last Playing player B then leaves; every remaining player is Lost, yet the
room status is still Playing: `LeaveRoom` never runs `checkGameEnd`. -/
theorem C5_leave_skips_game_end :
    Reachable roomLLost ∧
    (∀ kv ∈ roomLLost.Players, kv.2.Status = .Won ∨ kv.2.Status = .Lost) ∧
    roomLLost.Status ≠ .Finished :=
  ⟨reachable_roomLLost, by decide, by decide⟩

/-- C5 amended: `checkGameEnd` runs only inside `Room.MakeGuess`, so the
invariant holds for states produced by a guess: after any accepted guess, if
every player of the resulting room is in {Won, Lost}, the room is Finished.
`LeaveRoom` does not re-evaluate the end of the race, so removing the last
Playing player can leave a room Playing although all remaining players are
in terminal status. -/
theorem C5_guess_finishes_when_all_terminal (r : Room) (pid : String)
    (guess : GoStr) (now : Int) (r' : Room) (resp : Option GuessResp)
    (hop : MakeGuess r pid guess now = some (r', none, resp))
    (hall : ∀ kv ∈ r'.Players, kv.2.Status = .Won ∨ kv.2.Status = .Lost) :
    r'.Status = .Finished := by
  obtain ⟨p, g0, result, gNew, hplay, hlook, hpstat, hgame, hmk, hr1⟩ :=
    makeGuess_success hop
  subst hr1
  rw [successRoom_players] at hall
  rw [successRoom_status]
  rcases hgs : gNew.Status with _ | _ | _
  · exfalso
    have hmem : (pid,
        { updatePlayerStatus p gNew now with
            History := (updatePlayerStatus p gNew now).History ++ [guessResp result gNew] })
        ∈ setPlayer r.Players pid
          { updatePlayerStatus p gNew now with
              History := (updatePlayerStatus p gNew now).History ++ [guessResp result gNew] } :=
      setPlayer_mem_self (lookup_some_mem _ _ _ hlook)
    have hterm := hall _ hmem
    simp [updatePlayerStatus, hgs, hpstat] at hterm
  · simp only [roomStatusAfterGuess, hgs]
    apply checkGameEnd_of_won (pid, updatePlayerStatus p gNew now)
    · exact setPlayer_mem_self (lookup_some_mem _ _ _ hlook)
    · simp [updatePlayerStatus, hgs]
  · simp only [roomStatusAfterGuess, hgs]
    apply checkGameEnd_of_none_playing
    intro kv hmem
    rcases mem_setPlayer_cases hmem with heq | ⟨hmem0, hne⟩
    · rw [heq]
      simp [updatePlayerStatus, hgs]
    · have hkv : kv ∈ setPlayer r.Players pid
          { updatePlayerStatus p gNew now with
              History := (updatePlayerStatus p gNew now).History ++ [guessResp result gNew] } :=
        mem_setPlayer_of_ne hmem0 hne
      rcases hall kv hkv with hterm | hterm <;> simp [hterm]

/-- C5 amended, witness: B's final losing guess in trace L leaves everyone
Lost and the room indeed finishes. -/
theorem C5_guess_finishes_when_all_terminal_witness : roomLAll.Status = .Finished :=
  C5_guess_finishes_when_all_terminal roomL3 "B" wrongW 11 roomLAll
    (((MakeGuess roomL3 "B" wrongW 11).getD (noRoom, none, none)).2.2)
    rfl (by decide)

/-- When every player holds a session, the ranking scratch array builds. -/
theorem buildRanks_isSome {ps : List (String × Player)}
    (h : ∀ kv ∈ ps, kv.2.Game ≠ none) : (buildRanks ps).isSome = true := by
  induction ps with
  | nil => rfl
  | cons kv t ih =>
    have hkv : kv.2.Game ≠ none := h kv (List.mem_cons_self kv t)
    obtain ⟨g, hg⟩ := Option.ne_none_iff_exists.mp hkv
    have ht := ih (fun e he => h e (List.mem_cons_of_mem kv he))
    obtain ⟨l, hl⟩ := Option.isSome_iff_exists.mp ht
    unfold buildRanks at hl ⊢
    rw [List.mapM_cons, ← hg, hl]
    rfl

/-- C10: in every reachable room that is Playing or Finished, every player
holds a session (the `*game.Game` pointer is non-nil), and consequently
`GetProgress` — which invokes `calculateRanking` on a Finished room — never
dereferences a nil session and returns a snapshot. -/
theorem C10_sessions_ready (r : Room) (hr : Reachable r)
    (hs : r.Status = .Playing ∨ r.Status = .Finished) :
    (∀ kv ∈ r.Players, kv.2.Game ≠ none) ∧ (r.GetProgress).isSome = true := by
  have hg := reachable_games_ready r hr hs
  refine ⟨hg, ?_⟩
  unfold Room.GetProgress
  by_cases hf : r.Status = .Finished
  · rw [if_pos hf]
    have hb := buildRanks_isSome hg
    obtain ⟨l, hl⟩ := Option.isSome_iff_exists.mp hb
    unfold Room.calculateRanking
    rw [hl]
    rfl
  · rw [if_neg hf]
    rfl

/-- C10 witness: the freshly started trace-W room is Playing, all sessions
exist and the snapshot builds. -/
theorem C10_sessions_ready_witness :
    (∀ kv ∈ roomW2.Players, kv.2.Game ≠ none) ∧ (roomW2.GetProgress).isSome = true :=
  C10_sessions_ready roomW2 reachable_roomW2 (Or.inl (by decide))

/-- Length of a filtered cons, as the tail count plus the head's indicator. -/
theorem filter_cons_length {α : Type} (p : α → Bool) (a : α) (l : List α) :
    ((a :: l).filter p).length = (l.filter p).length + (if p a then 1 else 0) := by
  rw [List.filter_cons]
  by_cases h : p a = true
  · simp [h]
  · simp [h]

/-- Rezipping the projections of a zipped list restores it. -/
theorem zipFstSnd (l : List (Char × LetterStatus)) :
    (l.map Prod.fst).zip (l.map Prod.snd) = l := by
  induction l with
  | nil => rfl
  | cons p t ih =>
    show (p.1, p.2) :: (t.map Prod.fst).zip (t.map Prod.snd) = p :: t
    rw [ih]

/-- The second pass rewrites statuses but keeps the letters in place. -/
theorem pass2_fst (l : List (Char × LetterStatus)) :
    ∀ c, (pass2 l c).map Prod.fst = l.map Prod.fst := by
  induction l with
  | nil => intro c; rfl
  | cons p t ih =>
    intro c
    obtain ⟨ch, st⟩ := p
    unfold pass2
    by_cases h1 : st = LetterStatus.Hit
    · rw [if_pos h1]
      simp [ih]
    · rw [if_neg h1]
      by_cases h2 : 0 < c ch
      · rw [if_pos h2]
        simp [ih]
      · rw [if_neg h2]
        simp [ih]

/-- The second pass neither creates nor destroys Hit positions. -/
theorem pass2_hits (L : Char) : ∀ (l : List (Char × LetterStatus)) (c : Char → Nat),
    pairCount (pass2 l c) L .Hit = pairCount l L .Hit := by
  intro l
  induction l with
  | nil => intro c; rfl
  | cons p t ih =>
    intro c
    obtain ⟨ch, st⟩ := p
    unfold pass2
    by_cases h1 : st = LetterStatus.Hit
    · subst h1
      rw [if_pos rfl]
      unfold pairCount
      rw [filter_cons_length, filter_cons_length]
      have := ih c
      unfold pairCount at this
      omega
    · rw [if_neg h1]
      by_cases h2 : 0 < c ch
      · rw [if_pos h2]
        unfold pairCount
        rw [filter_cons_length, filter_cons_length]
        have := ih (decCount c ch)
        unfold pairCount at this
        simp only [h1]
        simp
        omega
      · rw [if_neg h2]
        unfold pairCount
        rw [filter_cons_length, filter_cons_length]
        have := ih c
        unfold pairCount at this
        simp only [h1]
        simp
        omega

/-- The second pass marks Present for a letter at most as many times as the
letter's remaining budget. -/
theorem pass2_present_le (L : Char) : ∀ (l : List (Char × LetterStatus)) (c : Char → Nat),
    pairCount (pass2 l c) L .Present ≤ c L := by
  intro l
  induction l with
  | nil => intro c; exact Nat.zero_le _
  | cons p t ih =>
    intro c
    obtain ⟨ch, st⟩ := p
    unfold pass2
    by_cases h1 : st = LetterStatus.Hit
    · rw [if_pos h1]
      unfold pairCount
      rw [filter_cons_length]
      have := ih c
      unfold pairCount at this
      simp
      omega
    · rw [if_neg h1]
      by_cases h2 : 0 < c ch
      · rw [if_pos h2]
        by_cases hL : ch = L
        · subst hL
          unfold pairCount
          rw [filter_cons_length]
          have hrest := ih (decCount c ch)
          unfold pairCount at hrest
          have hdec : (decCount c ch) ch = c ch - 1 := by
            unfold decCount
            simp
          rw [hdec] at hrest
          simp
          omega
        · unfold pairCount
          rw [filter_cons_length]
          have hrest := ih (decCount c ch)
          unfold pairCount at hrest
          have hdec : (decCount c ch) L = c L := by
            unfold decCount
            rw [if_neg (fun h => hL h.symm)]
          rw [hdec] at hrest
          simp [hL]
          omega
      · rw [if_neg h2]
        unfold pairCount
        rw [filter_cons_length]
        have := ih c
        unfold pairCount at this
        simp
        omega

/-- Hit positions after the first pass are exactly the exact matches. -/
theorem hitMark_hits (L : Char) (gz : List (Char × Char)) :
    pairCount (hitMark gz) L .Hit = hitsAt gz L := by
  induction gz with
  | nil => rfl
  | cons p t ih =>
    obtain ⟨x, y⟩ := p
    show pairCount ((x, if x = y then LetterStatus.Hit else LetterStatus.Miss) :: hitMark t)
      L .Hit = hitsAt ((x, y) :: t) L
    unfold pairCount hitsAt
    rw [filter_cons_length, filter_cons_length]
    unfold pairCount at ih
    unfold hitsAt at ih
    by_cases hxy : x = y
    · simp only [hxy, if_pos rfl]
      by_cases hxL : x = L <;> simp [hxL] <;> omega
    · simp only [if_neg hxy]
      simp [hxy]
      omega

/-- Exact matches carrying `L` are no more numerous than the occurrences of
`L` on the answer side. -/
theorem hitsAt_le_snd (L : Char) (gz : List (Char × Char)) :
    hitsAt gz L ≤ countIn (gz.map Prod.snd) L := by
  induction gz with
  | nil => exact Nat.le_refl 0
  | cons p t ih =>
    obtain ⟨x, y⟩ := p
    show hitsAt ((x, y) :: t) L ≤ countIn (y :: t.map Prod.snd) L
    unfold hitsAt countIn
    rw [filter_cons_length, filter_cons_length]
    unfold hitsAt countIn at ih
    by_cases hxy : x = y
    · by_cases hxL : x = L
      · have hyL : y = L := by rw [← hxy, hxL]
        simp [hxy, hxL, hyL]
        omega
      · simp [hxL]
        omega
    · simp [hxy]
      omega

/-- The counts left for the second pass are the initial counts minus the
exact matches, letter by letter. -/
theorem afterHitCounts_eq (L : Char) : ∀ (gz : List (Char × Char)) (c : Char → Nat),
    afterHitCounts gz c L = c L - hitsAt gz L := by
  intro gz
  induction gz with
  | nil => intro c; rfl
  | cons p t ih =>
    intro c
    obtain ⟨x, y⟩ := p
    show afterHitCounts t (if x = y then decCount c x else c) L = c L - hitsAt ((x, y) :: t) L
    unfold hitsAt
    rw [filter_cons_length]
    unfold hitsAt at ih
    by_cases hxy : x = y
    · rw [if_pos hxy]
      rw [ih]
      by_cases hxL : x = L
      · subst hxL
        have hdec : (decCount c x) x = c x - 1 := by
          unfold decCount
          simp
        rw [hdec]
        simp [hxy]
        omega
      · have hdec : (decCount c x) L = c L := by
          unfold decCount
          rw [if_neg (fun h => hxL h.symm)]
        rw [hdec]
        simp [hxL]
    · rw [if_neg hxy]
      rw [ih]
      simp [hxy]

/-- C9: for a valid uppercase 5-letter guess and answer and any letter `L`,
the positions of `L` marked Hit plus those marked Present never exceed the
occurrences of `L` in the answer: the first pass consumes one budget unit per
exact match and the second pass marks Present only while budget remains. -/
theorem C9_letter_budget (guess answer : GoStr) (L : Char)
    (hvg : ValidateWord guess = true) (hva : ValidateWord answer = true)
    (hug : toUpperStr guess = guess) (hua : toUpperStr answer = answer) :
    statusCount guess (EvaluateGuess guess answer) L .Hit +
      statusCount guess (EvaluateGuess guess answer) L .Present ≤
      countIn answer L := by
  have hlg : guess.length = 5 := by
    have := (by simpa [ValidateWord] using hvg :
      guess.length = 5 ∧ ∀ c ∈ guess, c.isAlpha = true)
    exact this.1
  have hla : answer.length = 5 := by
    have := (by simpa [ValidateWord] using hva :
      answer.length = 5 ∧ ∀ c ∈ answer, c.isAlpha = true)
    exact this.1
  have hrp : resultPairs guess answer =
      pass2 (hitMark (guess.zip answer))
        (afterHitCounts (guess.zip answer) (countIn answer)) := by
    unfold resultPairs
    rw [hug, hua]
  have hfst : (resultPairs guess answer).map Prod.fst = guess := by
    rw [hrp, pass2_fst]
    unfold hitMark
    rw [List.map_map]
    exact List.map_fst_zip guess answer (by omega)
  have hzip : guess.zip (EvaluateGuess guess answer) = resultPairs guess answer := by
    have h := zipFstSnd (resultPairs guess answer)
    rw [hfst] at h
    unfold EvaluateGuess
    exact h
  have hcounts : ∀ st, statusCount guess (EvaluateGuess guess answer) L st =
      pairCount (resultPairs guess answer) L st := by
    intro st
    unfold statusCount pairCount
    rw [hzip]
  rw [hcounts, hcounts, hrp]
  have h1 : pairCount (pass2 (hitMark (guess.zip answer))
      (afterHitCounts (guess.zip answer) (countIn answer))) L .Hit =
      hitsAt (guess.zip answer) L := by
    rw [pass2_hits]
    exact hitMark_hits L (guess.zip answer)
  have h2 : pairCount (pass2 (hitMark (guess.zip answer))
      (afterHitCounts (guess.zip answer) (countIn answer))) L .Present ≤
      countIn answer L - hitsAt (guess.zip answer) L := by
    have := pass2_present_le L (hitMark (guess.zip answer))
      (afterHitCounts (guess.zip answer) (countIn answer))
    rwa [afterHitCounts_eq] at this
  have h3 : hitsAt (guess.zip answer) L ≤ countIn answer L := by
    have := hitsAt_le_snd L (guess.zip answer)
    rwa [List.map_snd_zip guess answer (by omega)] at this
  omega

/-- C9 witness at the spec's literal vector SPEED against ERASE, letter E. -/
theorem C9_letter_budget_witness :
    statusCount "SPEED".toList (EvaluateGuess "SPEED".toList "ERASE".toList) 'E' .Hit +
      statusCount "SPEED".toList (EvaluateGuess "SPEED".toList "ERASE".toList) 'E' .Present ≤
      countIn "ERASE".toList 'E' :=
  C9_letter_budget "SPEED".toList "ERASE".toList 'E'
    (by decide) (by decide) (by decide) (by decide)

end Wordle
